import Mathlib

/-!
Verification of the go-argonize password-hashing library (KEINOS/go-argonize).

The development is a shallow embedding of `argonize.go`.  Go byte slices are
modelled as `List Nat` (each element below 256, stated as a hypothesis where
it matters); a Go `nil` slice is distinguished from an empty one with
`Option (List Nat)` at the API boundaries where the code tests `== nil`.
The external collaborators — the Argon2id derivation primitive
(`golang.org/x/crypto/argon2.IDKey`) and the entropy source (`RandRead`,
a swappable copy of `crypto/rand.Read`) — are taken as explicit function
parameters, exactly as the specification treats them (black boxes).
Fallible Go functions returning `(T, error)` become `Except String T`,
with `errors.Wrap(err, msg)` modelled as prefixing `msg ++ ": "`.
-/

namespace Argonize

/-- A Go byte value: a natural number below 256. -/
def isByte (b : Nat) : Prop := b < 256

/-! ## Base64 (encoding/base64, RawStdEncoding with Strict decoding)

`base64.RawStdEncoding` uses the standard alphabet without padding.
`EncodeToString` maps every 3 input bytes to 4 alphabet characters, with a
2-character tail for 1 leftover byte and a 3-character tail for 2 leftover
bytes.  `Strict().DecodeString` rejects characters outside the alphabet,
requires the unused trailing bits of a final partial quantum to be zero,
rejects a final quantum of a single character, and (as the Go decoder
documents) ignores carriage returns and newlines in the input. -/

/-- The standard base64 alphabet used by `base64.RawStdEncoding`. -/
def b64alphabet : List Char :=
  [ 'A', 'B', 'C', 'D', 'E', 'F', 'G', 'H', 'I', 'J', 'K', 'L', 'M',
    'N', 'O', 'P', 'Q', 'R', 'S', 'T', 'U', 'V', 'W', 'X', 'Y', 'Z',
    'a', 'b', 'c', 'd', 'e', 'f', 'g', 'h', 'i', 'j', 'k', 'l', 'm',
    'n', 'o', 'p', 'q', 'r', 's', 't', 'u', 'v', 'w', 'x', 'y', 'z',
    '0', '1', '2', '3', '4', '5', '6', '7', '8', '9', '+', '/' ]

/-- Character of a 6-bit group (the encode map of the standard alphabet). -/
def b64char (i : Nat) : Char := b64alphabet.getD i 'A'

/-- Decode map of the standard alphabet: position of a character in the
alphabet, `none` for characters outside it. -/
def b64index (c : Char) : Option Nat :=
  if 'A' ≤ c ∧ c ≤ 'Z' then some (c.toNat - 65)
  else if 'a' ≤ c ∧ c ≤ 'z' then some (c.toNat - 97 + 26)
  else if '0' ≤ c ∧ c ≤ '9' then some (c.toNat - 48 + 52)
  else if c = '+' then some 62
  else if c = '/' then some 63
  else none

/-- `base64.RawStdEncoding.EncodeToString`: 3 bytes become 4 characters;
a tail of 1 byte becomes 2 characters and a tail of 2 bytes becomes 3,
without padding. -/
def encodeB64 : List Nat → List Char
  | [] => []
  | [b0] => [b64char (b0 / 4), b64char (b0 % 4 * 16)]
  | [b0, b1] =>
      [b64char (b0 / 4), b64char (b0 % 4 * 16 + b1 / 16), b64char (b1 % 16 * 4)]
  | b0 :: b1 :: b2 :: rest =>
      b64char (b0 / 4) :: b64char (b0 % 4 * 16 + b1 / 16) ::
      b64char (b1 % 16 * 4 + b2 / 64) :: b64char (b2 % 64) :: encodeB64 rest

/-- Strict raw-std base64 decoding of a newline-free character sequence:
4 characters become 3 bytes; a final quantum of 2 or 3 characters becomes
1 or 2 bytes provided its unused low bits are zero; a final quantum of one
character is corrupt input. -/
def decodeB64Core : List Char → Option (List Nat)
  | [] => some []
  | [_] => none
  | [c0, c1] =>
      match b64index c0, b64index c1 with
      | some i0, some i1 =>
          if i1 % 16 = 0 then some [i0 * 4 + i1 / 16] else none
      | _, _ => none
  | [c0, c1, c2] =>
      match b64index c0, b64index c1, b64index c2 with
      | some i0, some i1, some i2 =>
          if i2 % 4 = 0 then
            some [i0 * 4 + i1 / 16, i1 % 16 * 16 + i2 / 4]
          else none
      | _, _, _ => none
  | c0 :: c1 :: c2 :: c3 :: rest =>
      match b64index c0, b64index c1, b64index c2, b64index c3,
            decodeB64Core rest with
      | some i0, some i1, some i2, some i3, some tail =>
          some ((i0 * 4 + i1 / 16) :: (i1 % 16 * 16 + i2 / 4) ::
                (i2 % 4 * 64 + i3) :: tail)
      | _, _, _, _, _ => none

/-- The Go base64 decoder ignores carriage returns and newlines. -/
def stripNewlines (s : List Char) : List Char :=
  s.filter (fun c => !(c == '\r' || c == '\n'))

/-- `base64.RawStdEncoding.Strict().DecodeString`. -/
def decodeB64 (s : List Char) : Option (List Nat) :=
  decodeB64Core (stripNewlines s)

/-! ### Base64 round trip -/

theorem b64char_mem (i : Nat) : b64char i ∈ b64alphabet := by
  unfold b64char
  rcases Nat.lt_or_ge i b64alphabet.length with h | h
  · rw [List.getD_eq_getElem _ _ h]
    exact List.getElem_mem h
  · rw [List.getD_eq_default _ _ h]
    decide

theorem b64index_b64char {i : Nat} (h : i < 64) :
    b64index (b64char i) = some i := by
  have key : ∀ j : Fin 64, b64index (b64char j.val) = some j.val := by decide
  exact key ⟨i, h⟩

theorem encodeB64_mem (l : List Nat) :
    ∀ c ∈ encodeB64 l, c ∈ b64alphabet := by
  intro c hc
  induction l using encodeB64.induct with
  | case1 => simp [encodeB64] at hc
  | case2 b0 =>
      simp only [encodeB64, List.mem_cons, List.not_mem_nil, or_false] at hc
      rcases hc with rfl | rfl <;> exact b64char_mem _
  | case3 b0 b1 =>
      simp only [encodeB64, List.mem_cons, List.not_mem_nil, or_false] at hc
      rcases hc with rfl | rfl | rfl <;> exact b64char_mem _
  | case4 b0 b1 b2 rest ih =>
      simp only [encodeB64, List.mem_cons] at hc
      rcases hc with rfl | rfl | rfl | rfl | hc
      · exact b64char_mem _
      · exact b64char_mem _
      · exact b64char_mem _
      · exact b64char_mem _
      · exact ih hc

theorem stripNewlines_encodeB64 (l : List Nat) :
    stripNewlines (encodeB64 l) = encodeB64 l := by
  unfold stripNewlines
  rw [List.filter_eq_self]
  intro c hc
  have hmem := encodeB64_mem l c hc
  have key : ∀ c ∈ b64alphabet, (!(c == '\r' || c == '\n')) = true := by decide
  exact key c hmem

theorem decodeB64Core_encodeB64 {l : List Nat} (hl : ∀ b ∈ l, b < 256) :
    decodeB64Core (encodeB64 l) = some l := by
  induction l using encodeB64.induct with
  | case1 => rfl
  | case2 b0 =>
      have h0 : b0 < 256 := hl b0 (by simp)
      simp only [encodeB64, decodeB64Core,
        b64index_b64char (show b0 / 4 < 64 by omega),
        b64index_b64char (show b0 % 4 * 16 < 64 by omega)]
      rw [if_pos (show b0 % 4 * 16 % 16 = 0 by omega)]
      simp only [Option.some.injEq, List.cons.injEq, and_true]
      omega
  | case3 b0 b1 =>
      have h0 : b0 < 256 := hl b0 (by simp)
      have h1 : b1 < 256 := hl b1 (by simp)
      simp only [encodeB64, decodeB64Core,
        b64index_b64char (show b0 / 4 < 64 by omega),
        b64index_b64char (show b0 % 4 * 16 + b1 / 16 < 64 by omega),
        b64index_b64char (show b1 % 16 * 4 < 64 by omega)]
      rw [if_pos (show b1 % 16 * 4 % 4 = 0 by omega)]
      simp only [Option.some.injEq, List.cons.injEq, and_true]
      constructor <;> omega
  | case4 b0 b1 b2 rest ih =>
      have h0 : b0 < 256 := hl b0 (by simp)
      have h1 : b1 < 256 := hl b1 (by simp)
      have h2 : b2 < 256 := hl b2 (by simp)
      have htail := ih (fun b hb => hl b (by simp [hb]))
      simp only [encodeB64, decodeB64Core,
        b64index_b64char (show b0 / 4 < 64 by omega),
        b64index_b64char (show b0 % 4 * 16 + b1 / 16 < 64 by omega),
        b64index_b64char (show b1 % 16 * 4 + b2 / 64 < 64 by omega),
        b64index_b64char (show b2 % 64 < 64 by omega), htail,
        Option.some.injEq, List.cons.injEq, and_true]
      refine ⟨by omega, by omega, by omega⟩

theorem decodeB64_encodeB64 {l : List Nat} (hl : ∀ b ∈ l, b < 256) :
    decodeB64 (encodeB64 l) = some l := by
  unfold decodeB64
  rw [stripNewlines_encodeB64]
  exact decodeB64Core_encodeB64 hl

/-! ## Decimal printing and scanning (fmt.Sprintf %d and fmt.Sscanf %d)

`fmt.Sprintf` renders an unsigned integer as its decimal digit string.
`fmt.Sscanf` with a `%d` verb skips leading white space, then consumes a
maximal run of decimal digits (with an optional sign when the target is
signed), leaves the remainder of the input untouched, and fails on range
overflow of the target integer type. -/

/-- The decimal digit character of a value below ten. -/
def digitChar (n : Nat) : Char :=
  if n = 0 then '0' else if n = 1 then '1' else if n = 2 then '2'
  else if n = 3 then '3' else if n = 4 then '4' else if n = 5 then '5'
  else if n = 6 then '6' else if n = 7 then '7' else if n = 8 then '8'
  else '9'

/-- Numeric value of a decimal digit character. -/
def digitVal (c : Char) : Nat := c.toNat - 48

/-- Decimal digit test. -/
def isDigit (c : Char) : Bool :=
  decide (48 ≤ c.toNat) && decide (c.toNat ≤ 57)

/-- White-space test used when a scanning verb skips leading spaces. -/
def isSpace (c : Char) : Bool :=
  c == ' ' || c == '\t' || c == '\n' || c == '\r'

/-- Skip leading white space, as the `%d` verb does. -/
def skipSpaces (s : List Char) : List Char := s.dropWhile isSpace

/-- Decimal digit string of a natural number, most significant digit
first — the rendering `fmt.Sprintf` uses for the `%d` verb. -/
def natDigits (n : Nat) : List Char :=
  if n < 10 then [digitChar n]
  else natDigits (n / 10) ++ [digitChar (n % 10)]
decreasing_by exact Nat.div_lt_self (by omega) (by omega)

/-- Accumulating digit consumption: consume a maximal run of decimal
digits, extending the accumulator in base ten. -/
def scanUIntGo : List Char → Nat → Nat × List Char
  | [], acc => (acc, [])
  | c :: rest, acc =>
      if isDigit c then scanUIntGo rest (acc * 10 + digitVal c)
      else (acc, c :: rest)

/-- Scan an unsigned decimal integer: at least one digit is required, the
maximal digit run is consumed, and the remaining input is returned. -/
def scanUInt (s : List Char) : Option (Nat × List Char) :=
  match s with
  | c :: rest =>
      if isDigit c then some (scanUIntGo rest (digitVal c)) else none
  | [] => none

/-- Scan a signed decimal integer (for a `%d` verb with a signed target):
an optional sign followed by digits. -/
def scanInt (s : List Char) : Option (Int × List Char) :=
  match s with
  | '-' :: rest =>
      match scanUInt rest with
      | some (n, r) => some (-(n : Int), r)
      | none => none
  | '+' :: rest =>
      match scanUInt rest with
      | some (n, r) => some ((n : Int), r)
      | none => none
  | _ =>
      match scanUInt s with
      | some (n, r) => some ((n : Int), r)
      | none => none

/-! ### Digit lemmas -/

theorem isDigit_digitChar (m : Nat) : isDigit (digitChar m) = true := by
  unfold digitChar
  split_ifs <;> decide

theorem digitVal_digitChar {m : Nat} (h : m < 10) :
    digitVal (digitChar m) = m := by
  interval_cases m <;> rfl

theorem toNat_of_isDigit {c : Char} (h : isDigit c = true) :
    48 ≤ c.toNat ∧ c.toNat ≤ 57 := by
  unfold isDigit at h
  simp only [Bool.and_eq_true, decide_eq_true_eq] at h
  exact h

theorem not_space_of_digit {c : Char} (h : isDigit c = true) :
    isSpace c = false := by
  have hc := toNat_of_isDigit h
  unfold isSpace
  simp only [Bool.or_eq_false_iff, beq_eq_false_iff_ne, ne_eq]
  refine ⟨⟨⟨?_, ?_⟩, ?_⟩, ?_⟩ <;> (rintro rfl; simp_all)

theorem ne_dollar_of_digit {c : Char} (h : isDigit c = true) : c ≠ '$' := by
  have hc := toNat_of_isDigit h
  rintro rfl
  simp_all

/-! ### natDigits lemmas -/

theorem natDigits_all (n : Nat) : ∀ c ∈ natDigits n, isDigit c = true := by
  induction n using Nat.strong_induction_on with
  | _ n ih =>
      rw [natDigits]
      split
      · intro c hc
        simp only [List.mem_singleton] at hc
        subst hc
        exact isDigit_digitChar n
      · intro c hc
        rcases List.mem_append.mp hc with hc | hc
        · exact ih (n / 10) (Nat.div_lt_self (by omega) (by omega)) c hc
        · simp only [List.mem_singleton] at hc
          subst hc
          exact isDigit_digitChar (n % 10)

theorem natDigits_ne_nil (n : Nat) : natDigits n ≠ [] := by
  rw [natDigits]
  split
  · simp
  · simp

theorem natDigits_foldl (n : Nat) :
    ∀ acc : Nat,
      (natDigits n).foldl (fun a c => a * 10 + digitVal c) acc =
        acc * 10 ^ (natDigits n).length + n := by
  induction n using Nat.strong_induction_on with
  | _ n ih =>
      intro acc
      rw [natDigits]
      split
      · rename_i h
        simp [List.foldl, digitVal_digitChar h]
      · rename_i h
        rw [List.foldl_append, List.length_append,
          ih (n / 10) (Nat.div_lt_self (by omega) (by omega)) acc]
        simp only [List.foldl, List.length_singleton]
        rw [digitVal_digitChar (show n % 10 < 10 by omega), pow_succ]
        have hmod : n / 10 * 10 + n % 10 = n := by omega
        calc (acc * 10 ^ (natDigits (n / 10)).length + n / 10) * 10 + n % 10
            = acc * (10 ^ (natDigits (n / 10)).length * 10) +
              (n / 10 * 10 + n % 10) := by ring
          _ = acc * (10 ^ (natDigits (n / 10)).length * 10) + n := by
              rw [hmod]

/-! ### Scanner lemmas -/

theorem scanUIntGo_append (l : List Char) :
    ∀ (rest : List Char) (acc : Nat),
      (∀ c ∈ l, isDigit c = true) →
      (∀ c, rest.head? = some c → isDigit c = false) →
      scanUIntGo (l ++ rest) acc =
        (l.foldl (fun a c => a * 10 + digitVal c) acc, rest) := by
  induction l with
  | nil =>
      intro rest acc _ hrest
      cases rest with
      | nil => rfl
      | cons c r =>
          simp [scanUIntGo, hrest c rfl]
  | cons d l ih =>
      intro rest acc hl hrest
      simp only [List.cons_append, scanUIntGo, hl d (by simp), if_pos,
        List.foldl_cons]
      exact ih rest (acc * 10 + digitVal d) (fun c hc => hl c (by simp [hc]))
        hrest

theorem scanUInt_natDigits (n : Nat) (rest : List Char)
    (hrest : ∀ c, rest.head? = some c → isDigit c = false) :
    scanUInt (natDigits n ++ rest) = some (n, rest) := by
  obtain ⟨d, ds, hds⟩ : ∃ d ds, natDigits n = d :: ds := by
    cases h : natDigits n with
    | nil => exact absurd h (natDigits_ne_nil n)
    | cons d ds => exact ⟨d, ds, rfl⟩
  have hall : ∀ c ∈ natDigits n, isDigit c = true := natDigits_all n
  have hval : (natDigits n).foldl (fun a c => a * 10 + digitVal c) 0 = n := by
    rw [natDigits_foldl]
    simp
  rw [hds] at hall hval ⊢
  simp only [List.cons_append, scanUInt, hall d (by simp), if_pos]
  rw [scanUIntGo_append ds rest (digitVal d)
    (fun c hc => hall c (by simp [hc])) hrest]
  simp only [List.foldl_cons] at hval
  rw [show (0 : Nat) * 10 + digitVal d = digitVal d by omega] at hval
  rw [hval]

theorem skipSpaces_natDigits (n : Nat) (rest : List Char) :
    skipSpaces (natDigits n ++ rest) = natDigits n ++ rest := by
  obtain ⟨d, ds, hds⟩ : ∃ d ds, natDigits n = d :: ds := by
    cases h : natDigits n with
    | nil => exact absurd h (natDigits_ne_nil n)
    | cons d ds => exact ⟨d, ds, rfl⟩
  have hd : isDigit d = true := natDigits_all n d (by rw [hds]; simp)
  rw [hds]
  simp [skipSpaces, List.dropWhile_cons, not_space_of_digit hd]

/-! ## Splitting on the dollar separator (strings.Split(s, dollar)) -/

/-- `strings.Split(s, sep)` for the one-character separator of the PHC
string format: the list of maximal separator-free runs, keeping empty
runs at the ends and between adjacent separators. -/
def splitDollar : List Char → List (List Char)
  | [] => [[]]
  | c :: rest =>
      if c = '$' then [] :: splitDollar rest
      else
        match splitDollar rest with
        | [] => [[c]]
        | h :: t => (c :: h) :: t

theorem splitDollar_ne_nil (s : List Char) : splitDollar s ≠ [] := by
  cases s with
  | nil => simp [splitDollar]
  | cons c rest =>
      simp only [splitDollar]
      split
      · simp
      · split <;> simp

theorem splitDollar_dollar (t : List Char) :
    splitDollar ('$' :: t) = [] :: splitDollar t := by
  simp [splitDollar]

theorem splitDollar_append (s t : List Char) (hs : ∀ c ∈ s, c ≠ '$') :
    splitDollar (s ++ '$' :: t) = s :: splitDollar t := by
  induction s with
  | nil => simp [splitDollar_dollar]
  | cons c s ih =>
      have hc : c ≠ '$' := hs c (by simp)
      have ih' : splitDollar (s.append ('$' :: t)) = s :: splitDollar t :=
        ih (fun x hx => hs x (by simp [hx]))
      simp only [List.cons_append, splitDollar, if_neg hc, ih']

theorem splitDollar_of_no_dollar (s : List Char) (hs : ∀ c ∈ s, c ≠ '$') :
    splitDollar s = [s] := by
  induction s with
  | nil => rfl
  | cons c s ih =>
      have hc : c ≠ '$' := hs c (by simp)
      have ih' := ih (fun x hx => hs x (by simp [hx]))
      simp only [splitDollar, if_neg hc, ih']

/-! ## Data model (argonize.go: Params, Salt, Hashed)

The Go struct fields `Iterations`, `KeyLength`, `MemoryCost`, `SaltLength`
are `uint32` and `Parallelism` is `uint8`; they are modelled as `Nat`, with
the type-level bounds appearing as hypotheses where a theorem needs them. -/

/-- Params holds the parameters for the Argon2id algorithm. -/
structure Params where
  Iterations : Nat
  KeyLength : Nat
  MemoryCost : Nat
  SaltLength : Nat
  Parallelism : Nat
deriving DecidableEq, Repr

/-- Default number of iterations (RFC 9106 second recommendation). -/
def IterationsDefault : Nat := 3

/-- Default output tag length in bytes. -/
def KeyLengthDefault : Nat := 32

/-- Default memory size in KiB (64 MiB). -/
def MemoryCostDefault : Nat := 64 * 1024

/-- Default number of lanes/threads. -/
def ParallelismDefault : Nat := 4

/-- Default salt length in bytes. -/
def SaltLengthDefault : Nat := 16

/-- NewParams returns a new Params object with default values
(`SetDefault` assigns the five default constants). -/
def NewParams : Params :=
  { Iterations := IterationsDefault
    KeyLength := KeyLengthDefault
    MemoryCost := MemoryCostDefault
    SaltLength := SaltLengthDefault
    Parallelism := ParallelismDefault }

/-- Salt holds the salt value (a Go byte slice). -/
abbrev Salt := List Nat

/-- Hashed holds the Argon2id hash value and its parameters. -/
structure Hashed where
  Params : Argonize.Params
  Salt : Argonize.Salt
  Hash : List Nat
deriving DecidableEq, Repr

/-! ## External collaborators

`golang.org/x/crypto/argon2.IDKey(password, salt, time, memory, threads,
keyLen)` and the swappable entropy source `RandRead` are outside this
repository; the spec treats both as black boxes, so they are explicit
function parameters of the embedding.  An entropy source maps a requested
length to the generated bytes, or to `none` when it fails. -/

/-- Type of the Argon2id derivation primitive
(password, salt, iterations, memoryKiB, parallelism, keyLength). -/
abbrev IDKeyT := List Nat → List Nat → Nat → Nat → Nat → Nat → List Nat

/-- Type of an entropy source (the swappable `RandRead`). -/
abbrev RandT := Nat → Option (List Nat)

/-- The compiled-in `argon2.Version` constant. -/
def Argon2Version : Nat := 19

/-! ## Random bytes and salt generation (argonize.go) -/

/-- RandomBytes returns securely generated random bytes with the given
length; a failing read is wrapped as an error. -/
def RandomBytes (randRead : RandT) (lenOut : Nat) : Except String (List Nat) :=
  match randRead lenOut with
  | none => .error "failed to read random bytes"
  | some bytesOut => .ok bytesOut

/-- NewSalt returns a new random salt of the given length, wrapping a
generation failure. -/
def NewSalt (randRead : RandT) (lenOut : Nat) : Except String (List Nat) :=
  match RandomBytes randRead lenOut with
  | .error e => .error ("failed to generate salt" ++ ": " ++ e)
  | .ok salt => .ok salt

/-! ## Hash production (argonize.go: Hash, HashCustom) -/

/-- HashCustom hashes the password with explicit parameters.  A `nil` salt
(`none`) is replaced by a fresh random salt of `parameters.SaltLength`
bytes; the error of that generation is discarded (`salt, _ = NewSalt(…)`
in the source), leaving the `nil` salt — modelled as `[]` — in place. -/
def HashCustom (idKey : IDKeyT) (randRead : RandT)
    (password : Option (List Nat)) (salt : Option (List Nat))
    (parameters : Params) : Hashed :=
  let saltVal : List Nat :=
    match salt with
    | none =>
        match NewSalt randRead parameters.SaltLength with
        | .ok s => s
        | .error _ => []
    | some s => s
  let hashedPass := idKey (password.getD []) saltVal parameters.Iterations
    parameters.MemoryCost parameters.Parallelism parameters.KeyLength
  { Params := parameters, Salt := saltVal, Hash := hashedPass }

/-- Hash hashes the password with the default parameters: generate a salt,
then (only when that succeeded) reject a `nil` password, wrapping either
error; otherwise delegate to `HashCustom`. -/
def Hash (idKey : IDKeyT) (randRead : RandT) (password : Option (List Nat)) :
    Except String Hashed :=
  let param := NewParams
  match NewSalt randRead param.SaltLength with
  | .error e => .error ("failed to hash the password" ++ ": " ++ e)
  | .ok salt =>
      match password with
      | none =>
          .error ("failed to hash the password" ++ ": " ++
            "the password is empty")
      | some _ => .ok (HashCustom idKey randRead password (some salt) param)

/-! ## Password verification (argonize.go: Hashed.IsValidPassword) -/

/-- `crypto/subtle.ConstantTimeCompare`: 0 when the lengths differ;
otherwise the OR-accumulation of the bytewise XOR differences is compared
with zero, yielding 1 exactly on equal contents. -/
def ConstantTimeCompare (x y : List Nat) : Nat :=
  if x.length ≠ y.length then 0
  else if (x.zip y).foldl (fun acc p => acc ||| (p.1 ^^^ p.2)) 0 = 0 then 1
  else 0

/-- IsValidPassword re-derives a key from the candidate password with the
stored salt and parameters and compares it with the stored hash in
constant time. -/
def Hashed.IsValidPassword (idKey : IDKeyT) (h : Hashed)
    (password : List Nat) : Bool :=
  let otherHash := idKey password h.Salt h.Params.Iterations
    h.Params.MemoryCost h.Params.Parallelism h.Params.KeyLength
  ConstantTimeCompare h.Hash otherHash == 1

/-! ## Canonical string encoding (argonize.go: Hashed.String)

`fmt.Sprintf("$argon2id$v=%d$m=%d,t=%d,p=%d$%s$%s", argon2.Version,
h.Params.MemoryCost, h.Params.Iterations, h.Params.Parallelism, b64Salt,
b64Hash)` with the two `%s` arguments produced by
`base64.RawStdEncoding.EncodeToString`. -/

/-- The encoded hash string in the standard Argon2 representation. -/
def Hashed.String (h : Hashed) : List Char :=
  '$' :: ("argon2id".toList ++
    '$' :: ('v' :: '=' :: natDigits Argon2Version ++
      '$' :: ('m' :: '=' :: natDigits h.Params.MemoryCost ++
        ',' :: 't' :: '=' :: natDigits h.Params.Iterations ++
        ',' :: 'p' :: '=' :: natDigits h.Params.Parallelism ++
          '$' :: (encodeB64 h.Salt ++ '$' :: encodeB64 h.Hash))))

/-! ## Canonical string decoding (argonize.go: DecodeHashStr) -/

/-- The distinct failure classes of `DecodeHashStr`, one per `errors.New`
or `errors.Wrap` return in the source. -/
inductive DecodeError
  | invalidHashFormat
  | failedParseVersion
  | incompatibleVersion
  | missingParameters
  | failedDecodeSalt
  | failedDecodeHash
  | lengthOutOfRange
deriving DecidableEq, Repr

/-- The `maxInt32` constant of the source. -/
def maxInt32 : Nat := 2147483647

/-- Number of chunks in the encoded hash string. -/
def lenDecChunks : Nat := 6

/-- `fmt.Sscanf(vals[2], "v=%d", &version)` with `version : int`:
literal `v=`, then a signed decimal (leading spaces skipped) subject to
the 64-bit signed range; trailing input is ignored. -/
def scanVersion (s : List Char) : Option Int :=
  match s with
  | 'v' :: '=' :: rest =>
      match scanInt (skipSpaces rest) with
      | some (v, _) =>
          if -9223372036854775808 ≤ v ∧ v ≤ 9223372036854775807 then some v
          else none
      | none => none
  | _ => none

/-- `fmt.Sscanf(vals[3], "m=%d,t=%d,p=%d", &m, &t, &p)` with `m t : uint32`
and `p : uint8`: the three literals and unsigned decimals in that exact
order, each subject to its target range; trailing input is ignored. -/
def scanParams (s : List Char) : Option (Nat × Nat × Nat) :=
  match s with
  | 'm' :: '=' :: r0 =>
      match scanUInt (skipSpaces r0) with
      | some (m, r1) =>
          if m < 4294967296 then
            match r1 with
            | ',' :: 't' :: '=' :: r2 =>
                match scanUInt (skipSpaces r2) with
                | some (t, r3) =>
                    if t < 4294967296 then
                      match r3 with
                      | ',' :: 'p' :: '=' :: r4 =>
                          match scanUInt (skipSpaces r4) with
                          | some (p, _) =>
                              if p < 256 then some (m, t, p) else none
                          | none => none
                      | _ => none
                    else none
                | none => none
            | _ => none
          else none
      | none => none
  | _ => none

/-- DecodeHashStr decodes an Argon2id formatted hash string into a Hashed
object, following the source's sequence of checks exactly. -/
def DecodeHashStr (encodedHash : List Char) : Except DecodeError Hashed :=
  let vals := splitDollar encodedHash
  if vals.length ≠ lenDecChunks then .error .invalidHashFormat
  else
    match scanVersion (vals.getD 2 []) with
    | none => .error .failedParseVersion
    | some version =>
        if version ≠ (Argon2Version : Int) then .error .incompatibleVersion
        else
          match scanParams (vals.getD 3 []) with
          | none => .error .missingParameters
          | some (m, t, p) =>
              match decodeB64 (vals.getD 4 []) with
              | none => .error .failedDecodeSalt
              | some salt =>
                  match decodeB64 (vals.getD 5 []) with
                  | none => .error .failedDecodeHash
                  | some hash =>
                      if salt.length > maxInt32 ∨ hash.length > maxInt32 ∨
                          salt.length < 8 then
                        .error .lengthOutOfRange
                      else
                        .ok { Params :=
                                { NewParams with
                                  MemoryCost := m, Iterations := t,
                                  Parallelism := p,
                                  SaltLength := salt.length,
                                  KeyLength := hash.length },
                              Salt := salt, Hash := hash }

/-! ## Decidable equality of results -/

instance exceptDecEq {ε α : Type} [DecidableEq ε] [DecidableEq α] :
    DecidableEq (Except ε α) := fun a b =>
  match a, b with
  | .error e, .error f =>
      match decEq e f with
      | isTrue h => isTrue (by rw [h])
      | isFalse h => isFalse (fun hh => h (Except.error.inj hh))
  | .ok x, .ok y =>
      match decEq x y with
      | isTrue h => isTrue (by rw [h])
      | isFalse h => isFalse (fun hh => h (Except.ok.inj hh))
  | .error _, .ok _ => isFalse (fun hh => Except.noConfusion hh)
  | .ok _, .error _ => isFalse (fun hh => Except.noConfusion hh)

/-! ## Constant-time comparison characterization -/

theorem nat_or_eq_zero {x y : Nat} : x ||| y = 0 ↔ x = 0 ∧ y = 0 := by
  constructor
  · intro h
    have hb : ∀ i, x.testBit i = false ∧ y.testBit i = false := by
      intro i
      have hc := congrArg (fun z => z.testBit i) h
      simpa [Nat.testBit_or, Bool.or_eq_false_iff] using hc
    exact ⟨Nat.eq_of_testBit_eq fun i => by simp [(hb i).1],
           Nat.eq_of_testBit_eq fun i => by simp [(hb i).2]⟩
  · rintro ⟨rfl, rfl⟩
    rfl

theorem foldl_or_xor_eq_zero (l : List (Nat × Nat)) :
    ∀ a : Nat,
      (l.foldl (fun acc p => acc ||| (p.1 ^^^ p.2)) a = 0) ↔
        (a = 0 ∧ ∀ p ∈ l, p.1 = p.2) := by
  induction l with
  | nil => intro a; simp
  | cons p l ih =>
      intro a
      rw [List.foldl_cons, ih, nat_or_eq_zero, Nat.xor_eq_zero]
      constructor
      · rintro ⟨⟨h0, hp⟩, hl⟩
        exact ⟨h0, by simpa [hp] using hl⟩
      · rintro ⟨h0, hl⟩
        exact ⟨⟨h0, hl p (by simp)⟩, fun q hq => hl q (by simp [hq])⟩

theorem zip_all_eq_iff (x : List Nat) :
    ∀ y : List Nat, x.length = y.length →
      ((∀ p ∈ x.zip y, p.1 = p.2) ↔ x = y) := by
  induction x with
  | nil =>
      intro y hy
      cases y with
      | nil => simp
      | cons b ys => simp at hy
  | cons a xs ih =>
      intro y hy
      cases y with
      | nil => simp at hy
      | cons b ys =>
          simp only [List.length_cons, Nat.add_right_cancel_iff] at hy
          simp only [List.zip_cons_cons, List.mem_cons, List.cons.injEq]
          constructor
          · intro hp
            refine ⟨hp (a, b) (by simp), ?_⟩
            exact (ih ys hy).mp fun q hq => hp q (by simp [hq])
          · rintro ⟨rfl, rfl⟩
            intro q hq
            rcases hq with rfl | hq
            · rfl
            · exact ((ih xs rfl).mpr rfl) q hq

theorem constantTimeCompare_eq_one_iff (x y : List Nat) :
    ConstantTimeCompare x y = 1 ↔ x = y := by
  unfold ConstantTimeCompare
  by_cases hlen : x.length = y.length
  · rw [if_neg (by simp [hlen])]
    by_cases heq : (x.zip y).foldl (fun acc p => acc ||| (p.1 ^^^ p.2)) 0 = 0
    · rw [if_pos heq]
      rw [foldl_or_xor_eq_zero] at heq
      simp only [true_iff]
      exact (zip_all_eq_iff x y hlen).mp heq.2
    · rw [if_neg heq]
      constructor
      · intro h; exact absurd h (by simp)
      · intro h
        exact absurd ((foldl_or_xor_eq_zero (x.zip y) 0).mpr
          ⟨rfl, (zip_all_eq_iff x y hlen).mpr h⟩) heq
  · rw [if_pos hlen]
    constructor
    · intro h; exact absurd h (by simp)
    · intro h; exact absurd (congrArg List.length h) hlen

/-- IsValidPassword is the boolean of key equality (length and content). -/
theorem isValidPassword_iff (idKey : IDKeyT) (h : Hashed)
    (password : List Nat) :
    h.IsValidPassword idKey password = true ↔
      idKey password h.Salt h.Params.Iterations h.Params.MemoryCost
        h.Params.Parallelism h.Params.KeyLength = h.Hash := by
  unfold Hashed.IsValidPassword
  rw [beq_iff_eq, constantTimeCompare_eq_one_iff]
  exact eq_comm

/-! ## Splitting the encoded string back into its six segments -/

theorem no_dollar_natDigits (n : Nat) : ∀ c ∈ natDigits n, c ≠ '$' :=
  fun c hc => ne_dollar_of_digit (natDigits_all n c hc)

theorem no_dollar_b64 (l : List Nat) : ∀ c ∈ encodeB64 l, c ≠ '$' := by
  intro c hc
  have halpha : ∀ c ∈ b64alphabet, c ≠ '$' := by decide
  exact halpha c (encodeB64_mem l c hc)

theorem no_dollar_params_seg (m t p : Nat) :
    ∀ c ∈ 'm' :: '=' :: (natDigits m ++
        ',' :: 't' :: '=' :: (natDigits t ++
          ',' :: 'p' :: '=' :: natDigits p)), c ≠ '$' := by
  intro c hc
  simp only [List.mem_cons, List.mem_append] at hc
  rcases hc with rfl | rfl | hc | rfl | rfl | rfl | hc | rfl | rfl | rfl | hc
  · decide
  · decide
  · exact no_dollar_natDigits m c hc
  · decide
  · decide
  · decide
  · exact no_dollar_natDigits t c hc
  · decide
  · decide
  · decide
  · exact no_dollar_natDigits p c hc

theorem no_dollar_version_seg :
    ∀ c ∈ 'v' :: '=' :: natDigits Argon2Version, c ≠ '$' := by
  intro c hc
  simp only [List.mem_cons] at hc
  rcases hc with rfl | rfl | hc
  · decide
  · decide
  · exact no_dollar_natDigits Argon2Version c hc

theorem splitDollar_string (h : Hashed) :
    splitDollar h.String =
      [[], "argon2id".toList,
       'v' :: '=' :: natDigits Argon2Version,
       'm' :: '=' :: (natDigits h.Params.MemoryCost ++
         ',' :: 't' :: '=' :: (natDigits h.Params.Iterations ++
           ',' :: 'p' :: '=' :: natDigits h.Params.Parallelism)),
       encodeB64 h.Salt, encodeB64 h.Hash] := by
  have shape : h.String =
      '$' :: ("argon2id".toList ++
        '$' :: (('v' :: '=' :: natDigits Argon2Version) ++
          '$' :: (('m' :: '=' :: (natDigits h.Params.MemoryCost ++
              ',' :: 't' :: '=' :: (natDigits h.Params.Iterations ++
                ',' :: 'p' :: '=' :: natDigits h.Params.Parallelism))) ++
            '$' :: (encodeB64 h.Salt ++ '$' :: encodeB64 h.Hash)))) := by
    simp [Hashed.String]
  rw [shape, splitDollar_dollar,
    splitDollar_append _ _ (by decide),
    splitDollar_append _ _ no_dollar_version_seg,
    splitDollar_append _ _ (no_dollar_params_seg _ _ _),
    splitDollar_append _ _ (no_dollar_b64 _),
    splitDollar_of_no_dollar _ (no_dollar_b64 _)]

/-! ## Scanning back the printed numbers -/

theorem natDigits19 : natDigits 19 = ['1', '9'] := by
  rw [natDigits]
  norm_num
  rw [natDigits]
  decide

theorem scanVersion_19 :
    scanVersion ('v' :: '=' :: natDigits 19) = some 19 := by
  rw [natDigits19]
  decide

theorem head_comma_not_digit :
    ∀ (t : List Char) (c : Char),
      (',' :: t).head? = some c → isDigit c = false := by
  intro t c hc
  simp only [List.head?_cons, Option.some.injEq] at hc
  subst hc
  decide

theorem head_nil_not_digit :
    ∀ c : Char, (List.nil (α := Char)).head? = some c → isDigit c = false := by
  intro c hc
  simp at hc

theorem skipSpaces_natDigits_nil (n : Nat) :
    skipSpaces (natDigits n) = natDigits n := by
  have e := skipSpaces_natDigits n []
  simpa using e

theorem scanUInt_natDigits_nil (n : Nat) :
    scanUInt (natDigits n) = some (n, []) := by
  have e := scanUInt_natDigits n [] head_nil_not_digit
  simpa using e

theorem scanParams_print (m t p : Nat) (hm : m < 4294967296)
    (ht : t < 4294967296) (hp : p < 256) :
    scanParams ('m' :: '=' :: (natDigits m ++
        ',' :: 't' :: '=' :: (natDigits t ++
          ',' :: 'p' :: '=' :: natDigits p))) = some (m, t, p) := by
  have e1 := skipSpaces_natDigits m
    (',' :: 't' :: '=' :: (natDigits t ++ ',' :: 'p' :: '=' :: natDigits p))
  have e2 := scanUInt_natDigits m
    (',' :: 't' :: '=' :: (natDigits t ++ ',' :: 'p' :: '=' :: natDigits p))
    (head_comma_not_digit _)
  have e3 := skipSpaces_natDigits t (',' :: 'p' :: '=' :: natDigits p)
  have e4 := scanUInt_natDigits t (',' :: 'p' :: '=' :: natDigits p)
    (head_comma_not_digit _)
  have e5 := skipSpaces_natDigits_nil p
  have e6 := scanUInt_natDigits_nil p
  simp only [scanParams, e1, e2, e3, e4, e5, e6]
  rw [if_pos hm, if_pos ht, if_pos hp]

/-! ## Claim theorems -/

/-- Claim C1: for every Hashed value h whose fields are mutually
consistent — h.Params.SaltLength equals the byte length of h.Salt,
h.Params.KeyLength equals the byte length of h.Hash, the salt is at least
8 bytes, and both lengths are at most 2147483647 — DecodeHashStr applied
to h.String succeeds and returns a Hashed equal to h in every field.
The remaining hypotheses state the Go type bounds: byte-slice elements
are below 256, the uint32 fields below 2^32 and the uint8 field below
2^8. -/
theorem C1_decode_encode_roundtrip (h : Hashed)
    (hsb : ∀ b ∈ h.Salt, b < 256) (hhb : ∀ b ∈ h.Hash, b < 256)
    (hm : h.Params.MemoryCost < 4294967296)
    (ht : h.Params.Iterations < 4294967296)
    (hp : h.Params.Parallelism < 256)
    (hsl : h.Params.SaltLength = h.Salt.length)
    (hkl : h.Params.KeyLength = h.Hash.length)
    (hmin : 8 ≤ h.Salt.length)
    (hsmax : h.Salt.length ≤ maxInt32)
    (hhmax : h.Hash.length ≤ maxInt32) :
    DecodeHashStr h.String = .ok h := by
  have hsplit := splitDollar_string h
  obtain ⟨⟨t, kl, m, sl, par⟩, salt, hash⟩ := h
  dsimp only at hsplit hsb hhb hm ht hp hsl hkl hmin hsmax hhmax ⊢
  have hlen : ¬(List.length salt > maxInt32 ∨ hash.length > maxInt32 ∨
      List.length salt < 8) := by
    push_neg
    exact ⟨hsmax, hhmax, by omega⟩
  simp only [DecodeHashStr, hsplit, List.length_cons, List.length_nil,
    lenDecChunks, List.getD_cons_succ, List.getD_cons_zero, Argon2Version,
    scanVersion_19, scanParams_print m t par hm ht hp,
    decodeB64_encodeB64 hsb, decodeB64_encodeB64 hhb]
  norm_num
  rw [if_neg hlen]
  subst hsl hkl
  rfl

/-- Witness for C1 at a concrete consistent Hashed value. -/
theorem C1_witness :
    (∀ b ∈ (List.replicate 16 7 : List Nat), b < 256) ∧
    DecodeHashStr
        (Hashed.String ⟨⟨3, 32, 65536, 16, 4⟩,
          List.replicate 16 7, List.replicate 32 9⟩) =
      .ok ⟨⟨3, 32, 65536, 16, 4⟩, List.replicate 16 7,
        List.replicate 32 9⟩ :=
  ⟨by decide,
   C1_decode_encode_roundtrip _ (by decide) (by decide) (by decide)
     (by decide) (by decide) (by decide) (by decide) (by decide)
     (by decide) (by decide)⟩

/-- Claim C2: IsValidPassword returns true exactly when the derivation
primitive applied to the candidate with the stored salt and the five
stored parameters yields a key equal to the stored hash in length and
content; and a password accepted by Hash validates against the returned
result. -/
theorem C2_verification_correctness (idKey : IDKeyT) :
    (∀ (h : Hashed) (c : List Nat),
        h.IsValidPassword idKey c = true ↔
          idKey c h.Salt h.Params.Iterations h.Params.MemoryCost
            h.Params.Parallelism h.Params.KeyLength = h.Hash) ∧
    (∀ (randRead : RandT) (p : List Nat) (hashed : Hashed),
        Hash idKey randRead (some p) = .ok hashed →
          hashed.IsValidPassword idKey p = true) := by
  refine ⟨isValidPassword_iff idKey, ?_⟩
  intro randRead p hashed hok
  simp only [Hash] at hok
  cases hs : NewSalt randRead NewParams.SaltLength with
  | error e =>
      rw [hs] at hok
      exact Except.noConfusion hok
  | ok salt =>
      rw [hs] at hok
      obtain rfl : HashCustom idKey randRead (some p) (some salt) NewParams
          = hashed := Except.ok.inj hok
      rw [isValidPassword_iff]
      rfl

/-- A concrete derivation primitive for witnesses: the key is `keyLen`
copies of 1, so it depends on the requested length only. -/
def constIdKey : IDKeyT := fun _ _ _ _ _ keyLen => List.replicate keyLen 1

/-- A concrete entropy source for witnesses: `n` zero bytes. -/
def zeroRand : RandT := fun n => some (List.replicate n 0)

/-- A concrete always-failing entropy source for witnesses. -/
def failRand : RandT := fun _ => none

/-- Witness for C2 at a concrete result and candidate. -/
theorem C2_witness :
    Hashed.IsValidPassword constIdKey
        ⟨⟨3, 32, 65536, 16, 4⟩, List.replicate 16 0, List.replicate 32 1⟩
        [5] = true :=
  ((C2_verification_correctness constIdKey).1 _ [5]).mpr (by decide)

/-- Claim C3: h.String is exactly the argon2id PHC template
`$argon2id$v=<version>$m=<memory>,t=<iterations>,p=<parallelism>$<salt>$<key>`
with the compiled-in version 19, the fields in this fixed order, and the
salt and key segments drawn from the unpadded standard base64 alphabet
(so they contain no padding character and no URL-safe substitutes). -/
theorem C3_string_format (h : Hashed) :
    h.String =
      "$argon2id$v=".toList ++ natDigits 19 ++
      "$m=".toList ++ natDigits h.Params.MemoryCost ++
      ",t=".toList ++ natDigits h.Params.Iterations ++
      ",p=".toList ++ natDigits h.Params.Parallelism ++
      "$".toList ++ encodeB64 h.Salt ++
      "$".toList ++ encodeB64 h.Hash ∧
    (∀ c ∈ encodeB64 h.Salt, c ∈ b64alphabet) ∧
    (∀ c ∈ encodeB64 h.Hash, c ∈ b64alphabet) ∧
    '=' ∉ b64alphabet ∧ '-' ∉ b64alphabet ∧ '_' ∉ b64alphabet := by
  refine ⟨?_, encodeB64_mem _, encodeB64_mem _, by decide, by decide,
    by decide⟩
  show Hashed.String h = _
  rw [Hashed.String]
  simp [Argon2Version]

/-- Claim C5: after a successful split, version check, parameter scan and
base64 decoding, the length-out-of-range error is returned exactly when
the decoded salt is shorter than 8 bytes or longer than 2147483647 bytes
or the decoded key is longer than 2147483647 bytes; otherwise decoding
succeeds with SaltLength and KeyLength taken from the observed decoded
lengths — in particular no lower bound is enforced on the key length. -/
theorem C5_length_validation (s : List Char) (v0 v1 v2 v3 v4 v5 : List Char)
    (m t p : Nat) (salt hash : List Nat)
    (hsplit : splitDollar s = [v0, v1, v2, v3, v4, v5])
    (hv : scanVersion v2 = some 19)
    (hp : scanParams v3 = some (m, t, p))
    (hsalt : decodeB64 v4 = some salt)
    (hhash : decodeB64 v5 = some hash) :
    (DecodeHashStr s = .error .lengthOutOfRange ↔
      salt.length < 8 ∨ salt.length > maxInt32 ∨ hash.length > maxInt32) ∧
    (¬(salt.length < 8 ∨ salt.length > maxInt32 ∨ hash.length > maxInt32) →
      DecodeHashStr s =
        .ok ⟨⟨t, hash.length, m, salt.length, p⟩, salt, hash⟩) := by
  have hAB : (salt.length > maxInt32 ∨ hash.length > maxInt32 ∨
      salt.length < 8) ↔
      (salt.length < 8 ∨ salt.length > maxInt32 ∨ hash.length > maxInt32) := by
    tauto
  have heval : DecodeHashStr s =
      if salt.length > maxInt32 ∨ hash.length > maxInt32 ∨
          salt.length < 8 then
        .error .lengthOutOfRange
      else
        .ok ⟨⟨t, hash.length, m, salt.length, p⟩, salt, hash⟩ := by
    simp only [DecodeHashStr, hsplit, List.length_cons, List.length_nil,
      lenDecChunks, List.getD_cons_succ, List.getD_cons_zero,
      hv, hp, hsalt, hhash]
    norm_num [Argon2Version]
  rw [heval]
  by_cases hA : (salt.length > maxInt32 ∨ hash.length > maxInt32 ∨
      salt.length < 8)
  · rw [if_pos hA]
    exact ⟨iff_of_true rfl (hAB.mp hA), fun hB => absurd (hAB.mp hA) hB⟩
  · rw [if_neg hA]
    refine ⟨iff_of_false (by simp) (fun hB => hA (hAB.mpr hB)), fun _ => rfl⟩

/-- Witness for C5: a hash string whose key segment is empty (0 decoded
bytes, below the documented 4-byte minimum) is accepted, with KeyLength 0
and SaltLength 8 observed from the decoded segments. -/
theorem C5_witness :
    DecodeHashStr "$argon2id$v=19$m=1,t=2,p=3$AAAAAAAAAAA$".toList =
      .ok ⟨⟨2, 0, 1, 8, 3⟩, List.replicate 8 0, []⟩ :=
  (C5_length_validation "$argon2id$v=19$m=1,t=2,p=3$AAAAAAAAAAA$".toList
    [] "argon2id".toList "v=19".toList "m=1,t=2,p=3".toList
    (List.replicate 11 'A') [] 1 2 3 (List.replicate 8 0) []
    (by decide) (by decide) (by decide) (by decide) (by decide)).2
    (by decide)

/-- Counterexample to claim C6: a zero-length but non-nil password is
accepted by Hash (with a working entropy source) and produces a full
result, instead of being rejected with the empty-password error. -/
theorem C6_counterexample :
    Hash constIdKey zeroRand (some []) =
      .ok ⟨NewParams, List.replicate 16 0, List.replicate 32 1⟩ := by
  decide

/-- Claim C6 amended: Hash fails with the empty-password error exactly
for a nil (absent) password; a zero-length but non-nil password is
accepted and hashed. -/
theorem C6_amended_nil_only (idKey : IDKeyT) (randRead : RandT)
    (bs : List Nat) (hok : randRead SaltLengthDefault = some bs) :
    Hash idKey randRead none =
      .error ("failed to hash the password" ++ ": " ++
        "the password is empty") ∧
    ∀ p : List Nat, Hash idKey randRead (some p) =
      .ok (HashCustom idKey randRead (some p) (some bs) NewParams) := by
  have hsalt : NewSalt randRead NewParams.SaltLength = .ok bs := by
    simp [NewSalt, RandomBytes, NewParams, hok]
  constructor
  · simp [Hash, hsalt]
  · intro p
    simp [Hash, hsalt]

/-- Witness for the amended C6 with a concrete entropy source. -/
theorem C6_witness :
    Hash constIdKey zeroRand none =
      .error ("failed to hash the password" ++ ": " ++
        "the password is empty") :=
  (C6_amended_nil_only constIdKey zeroRand (List.replicate 16 0) rfl).1

/-- Counterexample to claim C7: an empty but non-nil salt does not
trigger salt generation — HashCustom stores the empty salt instead of a
fresh salt of `SaltLength` bytes. -/
theorem C7_counterexample :
    (HashCustom constIdKey zeroRand (some [1]) (some []) NewParams).Salt
      = [] ∧
    (HashCustom constIdKey zeroRand (some [1]) (some [])
        NewParams).Salt.length ≠ NewParams.SaltLength := by
  decide

/-- Claim C7 amended: only a nil (absent) salt triggers generation; the
generated bytes are derived with and stored, and they have length
`parameters.SaltLength` whenever the entropy source is length-correct.
An empty but non-nil salt (like any other supplied salt) is used
as-is. -/
theorem C7_amended_nil_salt_generation (idKey : IDKeyT) (randRead : RandT)
    (p : Option (List Nat)) (params : Params) (bs : List Nat)
    (hok : randRead params.SaltLength = some bs) :
    HashCustom idKey randRead p none params =
      ⟨params, bs, idKey (p.getD []) bs params.Iterations params.MemoryCost
        params.Parallelism params.KeyLength⟩ ∧
    ((∀ n bs2, randRead n = some bs2 → bs2.length = n) →
      bs.length = params.SaltLength) ∧
    ∀ s : List Nat, HashCustom idKey randRead p (some s) params =
      ⟨params, s, idKey (p.getD []) s params.Iterations params.MemoryCost
        params.Parallelism params.KeyLength⟩ := by
  refine ⟨?_, fun hwf => hwf _ _ hok, fun s => rfl⟩
  simp [HashCustom, NewSalt, RandomBytes, hok]

/-- Witness for the amended C7 with concrete inputs. -/
theorem C7_witness :
    HashCustom constIdKey zeroRand (some [1]) none NewParams =
      ⟨NewParams, List.replicate 16 0,
        constIdKey [1] (List.replicate 16 0) NewParams.Iterations
          NewParams.MemoryCost NewParams.Parallelism
          NewParams.KeyLength⟩ :=
  (C7_amended_nil_salt_generation constIdKey zeroRand (some [1]) NewParams
    (List.replicate 16 0) rfl).1

/-- Counterexample to claim C8: when the entropy source fails while
HashCustom must generate a salt, no error reaches the caller — a full
result is produced with the nil (empty) salt, silently swallowing the
failure. -/
theorem C8_counterexample :
    failRand NewParams.SaltLength = none ∧
    HashCustom constIdKey failRand (some [1]) none NewParams =
      ⟨NewParams, [], List.replicate 32 1⟩ := by
  decide

/-- Claim C8 amended: every operation with an error channel surfaces its
failures — RandomBytes and NewSalt report a failed read, and Hash wraps
and returns the salt-generation failure — but HashCustom, whose signature
has no error return, discards a failed internal salt generation and
proceeds with the nil salt. -/
theorem C8_amended_no_silent_failure :
    (∀ (randRead : RandT) (n : Nat), randRead n = none →
        RandomBytes randRead n = .error "failed to read random bytes") ∧
    (∀ (randRead : RandT) (n : Nat), randRead n = none →
        NewSalt randRead n =
          .error ("failed to generate salt" ++ ": " ++
            "failed to read random bytes")) ∧
    (∀ (idKey : IDKeyT) (randRead : RandT) (p : Option (List Nat)),
        randRead SaltLengthDefault = none →
        Hash idKey randRead p =
          .error ("failed to hash the password" ++ ": " ++
            ("failed to generate salt" ++ ": " ++
              "failed to read random bytes"))) ∧
    (∀ (idKey : IDKeyT) (randRead : RandT) (p : Option (List Nat))
        (params : Params),
        randRead params.SaltLength = none →
        HashCustom idKey randRead p none params =
          ⟨params, [], idKey (p.getD []) [] params.Iterations
            params.MemoryCost params.Parallelism params.KeyLength⟩) := by
  refine ⟨?_, ?_, ?_, ?_⟩
  · intro randRead n hfail
    simp [RandomBytes, hfail]
  · intro randRead n hfail
    simp [NewSalt, RandomBytes, hfail]
  · intro idKey randRead p hfail
    simp [Hash, NewSalt, RandomBytes, NewParams, hfail]
  · intro idKey randRead p params hfail
    simp [HashCustom, NewSalt, RandomBytes, hfail]

/-- Witness for the amended C8 at a concrete failing source. -/
theorem C8_witness :
    RandomBytes failRand 5 = .error "failed to read random bytes" :=
  C8_amended_no_silent_failure.1 failRand 5 rfl

/-- Claim C10: when the entropy source fails, Hash returns the wrapped
random-generation error for every password — including a nil one — so
the salt-generation failure takes priority over the empty-password
error. -/
theorem C10_salt_failure_priority (idKey : IDKeyT) (randRead : RandT)
    (password : Option (List Nat))
    (hfail : randRead SaltLengthDefault = none) :
    Hash idKey randRead password =
      .error ("failed to hash the password" ++ ": " ++
        ("failed to generate salt" ++ ": " ++
          "failed to read random bytes")) := by
  simp [Hash, NewSalt, RandomBytes, NewParams, hfail]

/-- Witness for C10: concrete failing source and nil password. -/
theorem C10_witness :
    failRand SaltLengthDefault = none ∧
    Hash constIdKey failRand none =
      .error ("failed to hash the password" ++ ": " ++
        ("failed to generate salt" ++ ": " ++
          "failed to read random bytes")) :=
  ⟨rfl, C10_salt_failure_priority constIdKey failRand none rfl⟩

/-- Counterexample to claim C4: a well-formed string whose salt decodes
to only 3 bytes fails with the length-out-of-range error, which is not
among the failure classes the claim enumerates — so not every call
"either succeeds or returns exactly one of these errors". -/
theorem C4_counterexample :
    DecodeHashStr "$argon2id$v=19$m=65536,t=3,p=2$AAAA$AAAAAAAA".toList =
      .error .lengthOutOfRange ∧
    DecodeError.lengthOutOfRange ∉
      [DecodeError.invalidHashFormat, DecodeError.failedParseVersion,
       DecodeError.incompatibleVersion, DecodeError.missingParameters,
       DecodeError.failedDecodeSalt, DecodeError.failedDecodeHash] := by
  decide

/-- Claim C4 amended: DecodeHashStr evaluates its failure points in the
stated order — split arity, version parse, version equality, parameter
scan, salt decode, key decode — and additionally a seventh class, the
length validation, after base64 decoding; every call either succeeds or
returns exactly one of these errors. -/
theorem C4_amended_error_order :
    (∀ s : List Char, (splitDollar s).length ≠ 6 →
        DecodeHashStr s = .error .invalidHashFormat) ∧
    (∀ (s : List Char) (v0 v1 v2 v3 v4 v5 : List Char),
        splitDollar s = [v0, v1, v2, v3, v4, v5] →
        scanVersion v2 = none →
        DecodeHashStr s = .error .failedParseVersion) ∧
    (∀ (s : List Char) (v0 v1 v2 v3 v4 v5 : List Char) (v : Int),
        splitDollar s = [v0, v1, v2, v3, v4, v5] →
        scanVersion v2 = some v → v ≠ 19 →
        DecodeHashStr s = .error .incompatibleVersion) ∧
    (∀ (s : List Char) (v0 v1 v2 v3 v4 v5 : List Char),
        splitDollar s = [v0, v1, v2, v3, v4, v5] →
        scanVersion v2 = some 19 → scanParams v3 = none →
        DecodeHashStr s = .error .missingParameters) ∧
    (∀ (s : List Char) (v0 v1 v2 v3 v4 v5 : List Char) (m t p : Nat),
        splitDollar s = [v0, v1, v2, v3, v4, v5] →
        scanVersion v2 = some 19 → scanParams v3 = some (m, t, p) →
        decodeB64 v4 = none →
        DecodeHashStr s = .error .failedDecodeSalt) ∧
    (∀ (s : List Char) (v0 v1 v2 v3 v4 v5 : List Char) (m t p : Nat)
        (salt : List Nat),
        splitDollar s = [v0, v1, v2, v3, v4, v5] →
        scanVersion v2 = some 19 → scanParams v3 = some (m, t, p) →
        decodeB64 v4 = some salt → decodeB64 v5 = none →
        DecodeHashStr s = .error .failedDecodeHash) ∧
    (∀ (s : List Char) (v0 v1 v2 v3 v4 v5 : List Char) (m t p : Nat)
        (salt hash : List Nat),
        splitDollar s = [v0, v1, v2, v3, v4, v5] →
        scanVersion v2 = some 19 → scanParams v3 = some (m, t, p) →
        decodeB64 v4 = some salt → decodeB64 v5 = some hash →
        (salt.length > maxInt32 ∨ hash.length > maxInt32 ∨
          salt.length < 8) →
        DecodeHashStr s = .error .lengthOutOfRange) ∧
    (∀ s : List Char,
        (∃ h, DecodeHashStr s = .ok h) ∨ ∃ e, DecodeHashStr s = .error e) := by
  refine ⟨?_, ?_, ?_, ?_, ?_, ?_, ?_, ?_⟩
  · intro s h6
    simp only [DecodeHashStr, lenDecChunks]
    rw [if_pos h6]
  · intro s v0 v1 v2 v3 v4 v5 hsplit hv
    simp only [DecodeHashStr, hsplit, List.length_cons, List.length_nil,
      lenDecChunks, List.getD_cons_succ, List.getD_cons_zero, hv]
    norm_num
  · intro s v0 v1 v2 v3 v4 v5 v hsplit hv hne
    simp only [DecodeHashStr, hsplit, List.length_cons, List.length_nil,
      lenDecChunks, List.getD_cons_succ, List.getD_cons_zero, hv]
    rw [if_neg (show ¬((0 + 1 + 1 + 1 + 1 + 1 + 1 : Nat) ≠ 6) by norm_num),
      if_pos (show v ≠ (Argon2Version : Int) by
        simpa [Argon2Version] using hne)]
  · intro s v0 v1 v2 v3 v4 v5 hsplit hv hp
    simp only [DecodeHashStr, hsplit, List.length_cons, List.length_nil,
      lenDecChunks, List.getD_cons_succ, List.getD_cons_zero, hv, hp]
    norm_num [Argon2Version]
  · intro s v0 v1 v2 v3 v4 v5 m t p hsplit hv hp hs4
    simp only [DecodeHashStr, hsplit, List.length_cons, List.length_nil,
      lenDecChunks, List.getD_cons_succ, List.getD_cons_zero, hv, hp, hs4]
    norm_num [Argon2Version]
  · intro s v0 v1 v2 v3 v4 v5 m t p salt hsplit hv hp hs4 hs5
    simp only [DecodeHashStr, hsplit, List.length_cons, List.length_nil,
      lenDecChunks, List.getD_cons_succ, List.getD_cons_zero, hv, hp, hs4,
      hs5]
    norm_num [Argon2Version]
  · intro s v0 v1 v2 v3 v4 v5 m t p salt hash hsplit hv hp hs4 hs5 hlen
    have heval : DecodeHashStr s =
        if salt.length > maxInt32 ∨ hash.length > maxInt32 ∨
            salt.length < 8 then
          .error .lengthOutOfRange
        else
          .ok ⟨⟨t, hash.length, m, salt.length, p⟩, salt, hash⟩ := by
      simp only [DecodeHashStr, hsplit, List.length_cons, List.length_nil,
        lenDecChunks, List.getD_cons_succ, List.getD_cons_zero, hv, hp,
        hs4, hs5]
      norm_num [Argon2Version]
    rw [heval, if_pos hlen]
  · intro s
    cases hds : DecodeHashStr s with
    | ok v => exact Or.inl ⟨v, rfl⟩
    | error e => exact Or.inr ⟨e, rfl⟩

/-- Witness for the amended C4: a string with too few segments fails
with the malformed-format error. -/
theorem C4_witness :
    DecodeHashStr "abc".toList = .error .invalidHashFormat :=
  C4_amended_error_order.1 "abc".toList (by decide)

end Argonize
